import Mathlib

/-!
Shallow embedding of the habit-tracker application (`src/app.py`).

The embedded parts are the ones the verified properties are about:

* the session history store: `init_history` (from `_init_history_if_needed`)
  and `upsert_today` (from `_upsert_today`);
* the presentation-layer completion metrics (`completed_count`, `rate`);
* the three external-API clients `get_weather`, `get_dog_image` and
  `generate_report`, with the HTTP/SDK interaction made explicit as an
  input value (`HttpResult`, resp. an `Except` for the text-generation
  call), and the number of issued network requests returned alongside the
  result so that "no network call is made" is expressible.

Modelling conventions:

* Calendar dates are `"%Y-%m-%d"` strings in the source, compared and
  sorted lexicographically, which on that fixed-width format agrees with
  chronological order; they are embedded as `Int`.
* Python ints are `Int`; JSON numbers are `ℚ`.
* The Python `round` builtin (round half to even on an exact value here) is embedded
  as `roundHalfToEven` over `ℚ`; on every input reachable in the program
  (`completed_count / 5 * 100` for `completed_count ∈ 0..5`, and
  `rate / 100 * 5` for the seeded rates) the float computation is exact,
  so exact rational arithmetic is a faithful model.
* A fallible Python expression returning `None` on absence becomes
  `Option`; an `except Exception` handler becomes a constructor of the
  input (`HttpResult.transportError` / `Except.error`) that the embedded
  function maps to `none`, mirroring the `return None` in the handler.
-/

/-- One row of `st.session_state.history`:
`{"date": ..., "rate": ..., "completed": ..., "mood": ...}`. -/
structure DayRecord where
  date : Int
  rate : Int
  completed : Int
  mood : Int
deriving DecidableEq, Repr

/-- The comparison key of `sorted(hist, key=lambda x: x["date"])`. -/
def dateLe (a b : DayRecord) : Bool :=
  decide (a.date ≤ b.date)

/-- The dates of a history list. -/
def dates (hist : List DayRecord) : List Int :=
  hist.map (fun r => r.date)

/-- The insert-or-replace step of `_upsert_today` (lines 242-247): find the
first index whose `date` equals today; if none, append the new row, else
overwrite that index. -/
def update_history (today rate completed mood : Int) (hist : List DayRecord) :
    List DayRecord :=
  let row : DayRecord := { date := today, rate := rate, completed := completed, mood := mood }
  match hist.findIdx? (fun r => r.date == today) with
  | none => hist ++ [row]
  | some i => hist.set i row

/-- Model of `_upsert_today(rate, completed, mood)` with the current date `today`
made explicit: insert-or-replace the row of the current date, then keep the last 7 rows of
the date-sorted list (`sorted(hist, key=...)[-7:]`). -/
def upsert_today (today rate completed mood : Int) (hist : List DayRecord) :
    List DayRecord :=
  let hist' := update_history today rate completed mood hist
  let hist_sorted := hist'.mergeSort dateLe
  hist_sorted.drop (hist_sorted.length - 7)

/-- Replace the first row whose date matches, else append: an equivalent
recursive presentation of `update_history`, used in proofs. -/
def replaceFirst (row : DayRecord) : List DayRecord → List DayRecord
  | [] => [row]
  | r :: rs => if r.date = row.date then row :: rs else r :: replaceFirst row rs

/-- Model of the Python `round` builtin on an exact rational value: round half to even. -/
def roundHalfToEven (q : ℚ) : ℤ :=
  if q - ⌊q⌋ < 1/2 then ⌊q⌋
  else if 1/2 < q - ⌊q⌋ then ⌊q⌋ + 1
  else if ⌊q⌋ % 2 = 0 then ⌊q⌋ else ⌊q⌋ + 1

/-- Table `preset_rates = [40, 60, 80, 20, 100, 60]` from `_init_history_if_needed`. -/
def preset_rates : List Int := [40, 60, 80, 20, 100, 60]

/-- Table `preset_moods = [5, 6, 7, 4, 8, 6]` from `_init_history_if_needed`. -/
def preset_moods : List Int := [5, 6, 7, 4, 8, 6]

/-- The history installed by `_init_history_if_needed` when the session has
none: for `i` in `6, 5, ..., 1` a sample row dated `today - i` (index
`j = 6 - i` into the preset tables, `completed = round(rate / 100 * 5)`),
then the placeholder row of the current date with rate 0, completed 0, mood 5. -/
def init_history (today : Int) : List DayRecord :=
  ((List.range 6).map (fun j =>
    { date := today - (6 - (j : Int)),
      rate := preset_rates.getD j 0,
      completed := roundHalfToEven (((preset_rates.getD j 0 : Int) : ℚ) / 100 * 5),
      mood := preset_moods.getD j 0 }))
  ++ [{ date := today, rate := 0, completed := 0, mood := 5 }]

/-- Presentation-layer `completed_count = sum(flags)`: the number of checked habits. -/
def completed_count (flags : List Bool) : Nat :=
  (flags.filter (fun b => b)).length

/-- Presentation-layer `rate = int(round(completed_count / 5 * 100))`. -/
def rate (completed_count : Nat) : Int :=
  roundHalfToEven ((completed_count : ℚ) / 5 * 100)

/-- The outcome of one HTTP GET as observed by a client: either the request
raised (timeout, transport failure), or it produced a status code and — when
the body parsed as JSON — a parsed payload (`none` = `r.json()` raised). -/
inductive HttpResult (β : Type) where
  | transportError : HttpResult β
  | response (status : Int) (body : Option β) : HttpResult β

/-- One entry of the `weather` array of an OpenWeatherMap payload; only the
`description` field is read. -/
structure WeatherItem where
  description : Option String
deriving DecidableEq, Repr

/-- The `main` object of an OpenWeatherMap payload. -/
structure WeatherMain where
  temp : Option ℚ
  feels_like : Option ℚ
  humidity : Option ℚ
deriving DecidableEq, Repr

/-- The parts of an OpenWeatherMap payload that `get_weather` reads; a
`none` field is one absent from the JSON object. -/
structure WeatherPayload where
  weather : Option (List WeatherItem)
  main : Option WeatherMain
deriving DecidableEq, Repr

/-- The normalized weather snapshot `get_weather` returns on success. -/
structure WeatherSnapshot where
  city : String
  description : Option String
  temp : Option ℚ
  feels_like : Option ℚ
  humidity : Option ℚ
deriving DecidableEq, Repr

/-- Model of `get_weather(city, api_key)` with the HTTP exchange explicit. Returns
the snapshot (or `none`) together with the number of HTTP requests issued.
Mirrors lines 40-68: empty key short-circuits before the request; a raised
exception, a non-200 status or an unparseable body yield `none`; otherwise
the payload fields are extracted with `data.get("weather") or [{}]` /
`data.get("main") or {}` defaults. -/
def get_weather (city api_key : String) (resp : HttpResult WeatherPayload) :
    Option WeatherSnapshot × Nat :=
  if api_key = "" then (none, 0)
  else
    match resp with
    | .transportError => (none, 1)
    | .response status body =>
      if status ≠ 200 then (none, 1)
      else
        match body with
        | none => (none, 1)
        | some data =>
          let weather_desc :=
            match data.weather with
            | some (w :: _) => w.description
            | _ => none
          let m := data.main.getD { temp := none, feels_like := none, humidity := none }
          (some { city := city, description := weather_desc,
                  temp := m.temp, feels_like := m.feels_like,
                  humidity := m.humidity }, 1)

/-- The parts of a Dog CEO payload that `get_dog_image` reads. -/
structure DogPayload where
  status : Option String
  message : Option String
deriving DecidableEq, Repr

/-- The snapshot `get_dog_image` returns on success. -/
structure DogSnapshot where
  url : String
  breed : String
deriving DecidableEq, Repr

/-- The `replace("-", " ")` step on the matched breed label. -/
def hyphenToSpace (s : List Char) : List Char :=
  s.map (fun c => if c = '-' then ' ' else c)

/-- The Python `str.strip()` builtin: drop whitespace from both ends.
Defined structurally over the character list (Lean's own `String.trim`,
which has the same meaning, is defined by well-founded recursion on byte
positions and does not evaluate inside the kernel). -/
def py_strip (s : String) : String :=
  (((s.toList.dropWhile Char.isWhitespace).reverse.dropWhile
    Char.isWhitespace).reverse).asString

/-- One attempt of the regex `/breeds/([^/]+)/` at the current position:
succeeds when the text starts with `/breeds/`, followed by a nonempty run
of non-`/` characters, followed by `/`; returns the captured run. -/
def matchBreedsAt (l : List Char) : Option (List Char) :=
  if l.take 8 = "/breeds/".toList then
    let rest := l.drop 8
    let label := rest.takeWhile (fun c => c != '/')
    if label.isEmpty then none
    else
      match rest.dropWhile (fun c => c != '/') with
      | '/' :: _ => some label
      | _ => none
  else none

/-- Model of `re.search` with pattern `/breeds/([^/]+)/`: the leftmost match. -/
def searchBreeds : List Char → Option (List Char)
  | [] => none
  | c :: cs =>
    match matchBreedsAt (c :: cs) with
    | some label => some label
    | none => searchBreeds cs

/-- Breed derivation of `get_dog_image` (lines 89-95): the first
`/breeds/<label>/` segment with hyphens replaced by spaces and surrounding
whitespace stripped; `"unknown"` when there is no match or the stripped
result is empty (`breed or "unknown"`). -/
def extract_breed (img_url : String) : String :=
  match searchBreeds img_url.toList with
  | none => "unknown"
  | some label =>
    let b := py_strip ((hyphenToSpace label).asString)
    if b = "" then "unknown" else b

/-- Model of `get_dog_image()` with the HTTP exchange explicit. Mirrors lines 71-97:
a raised exception, non-200 status, unparseable body, a `status` field other
than `"success"`, or a missing/empty `message` URL yield `none`; otherwise
the URL plus the derived breed. -/
def get_dog_image (resp : HttpResult DogPayload) : Option DogSnapshot × Nat :=
  match resp with
  | .transportError => (none, 1)
  | .response status body =>
    if status ≠ 200 then (none, 1)
    else
      match body with
      | none => (none, 1)
      | some data =>
        if data.status ≠ some "success" then (none, 1)
        else
          match data.message with
          | none => (none, 1)
          | some img_url =>
            if img_url = "" then (none, 1)
            else (some { url := img_url, breed := extract_breed img_url }, 1)

/-- Model of `generate_report(...)` (lines 118-195) with the SDK call explicit:
`api = Except.error _` is a raised exception (transport or authentication
failure), `api = Except.ok t` a response whose `output_text` is `t`
(`none` = SDK `None`). The composed prompt does not influence the returned
value and is not modelled. Returns the report (or `none`) together with the
number of requests issued. Mirrors `(resp.output_text or "").strip() or
None` and the empty-key guard. -/
def generate_report (openai_api_key coach_style date_str city : String)
    (mood : Int) (habits_checked : List String)
    (weather : Option WeatherSnapshot) (dog : Option DogSnapshot)
    (api : Except Unit (Option String)) : Option String × Nat :=
  if openai_api_key = "" then (none, 0)
  else
    match api with
    | .error _ => (none, 1)
    | .ok output_text =>
      let s := py_strip (output_text.getD "")
      (if s = "" then none else some s, 1)

/-- One call to `_upsert_today`, with the current date explicit. -/
structure UpsertCall where
  today : Int
  rate : Int
  completed : Int
  mood : Int
deriving DecidableEq, Repr

/-- A sequence of `_upsert_today` calls applied to a history. -/
def apply_upserts (calls : List UpsertCall) (hist : List DayRecord) :
    List DayRecord :=
  calls.foldl (fun h c => upsert_today c.today c.rate c.completed c.mood h) hist

/-- The dates of a call sequence. -/
def call_dates (calls : List UpsertCall) : List Int :=
  calls.map (fun c => c.today)

/-- Reachable-state invariant of the history store relative to the set `D`
of dates upserted (or seeded) so far: record dates are distinct and drawn
from `D`, the length is `min |D| 7`, and while the store is not full it
holds a record for every date of `D`. -/
def histInv (D : Finset Int) (s : List DayRecord) : Prop :=
  (dates s).Nodup ∧ (∀ r ∈ s, r.date ∈ D) ∧ s.length = min D.card 7 ∧
    (s.length < 7 → ∀ d ∈ D, d ∈ dates s)

/-- The URL, as a character list, contains a `/breeds/<label>/` path
segment with the given nonempty, slash-free label. -/
def hasBreedSegment (l label : List Char) : Prop :=
  label ≠ [] ∧ (∀ ch ∈ label, ch ≠ '/') ∧
    ∃ pre post, l = pre ++ ("/breeds/".toList ++ (label ++ '/' :: post))

/-! ### History-store lemmas -/

theorem update_history_eq (today rate completed mood : Int) (hist : List DayRecord) :
    update_history today rate completed mood hist =
      replaceFirst { date := today, rate := rate, completed := completed, mood := mood } hist := by
  induction hist with
  | nil => rfl
  | cons r rs ih =>
    unfold update_history replaceFirst
    rw [List.findIdx?_cons]
    by_cases h : r.date = today
    · simp [h]
    · have hb : (r.date == today) = false := by simpa using h
      rw [hb]
      simp only [Bool.false_eq_true, if_false, if_neg h, List.findIdx?_succ]
      unfold update_history at ih
      cases hfi : rs.findIdx? (fun r => r.date == today) with
      | none =>
        rw [hfi] at ih
        simp only [Option.map_none']
        rw [← ih]
        rfl
      | some i =>
        rw [hfi] at ih
        simp only [Option.map_some']
        rw [← ih]
        rfl

theorem mem_replaceFirst {x row : DayRecord} :
    ∀ {s : List DayRecord}, x ∈ replaceFirst row s → x = row ∨ x ∈ s
  | [], h => by
    simp [replaceFirst] at h
    exact Or.inl h
  | r :: rs, h => by
    unfold replaceFirst at h
    by_cases hd : r.date = row.date
    · rw [if_pos hd] at h
      rcases List.mem_cons.mp h with h1 | h1
      · exact Or.inl h1
      · exact Or.inr (List.mem_cons_of_mem _ h1)
    · rw [if_neg hd] at h
      rcases List.mem_cons.mp h with h1 | h1
      · exact Or.inr (h1 ▸ List.mem_cons_self r rs)
      · rcases mem_replaceFirst h1 with h2 | h2
        · exact Or.inl h2
        · exact Or.inr (List.mem_cons_of_mem _ h2)

theorem row_mem_replaceFirst (row : DayRecord) :
    ∀ s : List DayRecord, row ∈ replaceFirst row s
  | [] => by simp [replaceFirst]
  | r :: rs => by
    unfold replaceFirst
    by_cases hd : r.date = row.date
    · rw [if_pos hd]; exact List.mem_cons_self _ _
    · rw [if_neg hd]; exact List.mem_cons_of_mem _ (row_mem_replaceFirst row rs)

theorem mem_replaceFirst_of_ne {x row : DayRecord} :
    ∀ {s : List DayRecord}, x ∈ s → x.date ≠ row.date → x ∈ replaceFirst row s
  | r :: rs, hx, hne => by
    unfold replaceFirst
    by_cases hd : r.date = row.date
    · rw [if_pos hd]
      rcases List.mem_cons.mp hx with h1 | h1
      · exact absurd (h1 ▸ hd) hne
      · exact List.mem_cons_of_mem _ h1
    · rw [if_neg hd]
      rcases List.mem_cons.mp hx with h1 | h1
      · exact h1 ▸ List.mem_cons_self r _
      · exact List.mem_cons_of_mem _ (mem_replaceFirst_of_ne h1 hne)

theorem dates_replaceFirst_of_mem {row : DayRecord} :
    ∀ {s : List DayRecord}, row.date ∈ dates s →
      dates (replaceFirst row s) = dates s
  | [], h => by simp [dates] at h
  | r :: rs, h => by
    unfold replaceFirst
    by_cases hd : r.date = row.date
    · rw [if_pos hd]
      simp [dates, hd]
    · rw [if_neg hd]
      have hm : row.date ∈ dates rs := by
        simp only [dates, List.map_cons, List.mem_cons] at h
        exact h.resolve_left fun he => hd he.symm
      simp only [dates, List.map_cons]
      rw [show List.map (fun r => r.date) (replaceFirst row rs) = dates (replaceFirst row rs) from rfl,
        dates_replaceFirst_of_mem hm]
      rfl

theorem replaceFirst_of_not_mem {row : DayRecord} :
    ∀ {s : List DayRecord}, row.date ∉ dates s →
      replaceFirst row s = s ++ [row]
  | [], _ => rfl
  | r :: rs, h => by
    have hd : r.date ≠ row.date := by
      intro he
      exact h (by simp [dates, he])
    have hm : row.date ∉ dates rs := by
      intro hm
      exact h (by simp [dates] at hm ⊢; exact Or.inr hm)
    unfold replaceFirst
    rw [if_neg hd, replaceFirst_of_not_mem hm]
    rfl

theorem sorted_date_mergeSort (l : List DayRecord) :
    List.Pairwise (fun a b => a.date ≤ b.date) (l.mergeSort dateLe) := by
  have htrans : ∀ a b c : DayRecord, dateLe a b = true → dateLe b c = true → dateLe a c = true := by
    intro a b c h1 h2
    simp only [dateLe, decide_eq_true_eq] at h1 h2 ⊢
    exact le_trans h1 h2
  have htotal : ∀ a b : DayRecord, (dateLe a b || dateLe b a) = true := by
    intro a b
    simp only [dateLe, Bool.or_eq_true, decide_eq_true_eq]
    exact le_total a.date b.date
  exact (List.sorted_mergeSort htrans htotal l).imp fun h => by
    simpa [dateLe] using h

theorem length_upsert (today rate completed mood : Int) (hist : List DayRecord) :
    (upsert_today today rate completed mood hist).length =
      min (update_history today rate completed mood hist).length 7 := by
  unfold upsert_today
  simp only [List.length_drop, List.length_mergeSort]
  omega

theorem mem_upsert {x : DayRecord} {today rate completed mood : Int} {hist : List DayRecord}
    (h : x ∈ upsert_today today rate completed mood hist) :
    x ∈ update_history today rate completed mood hist := by
  unfold upsert_today at h
  exact ((update_history today rate completed mood hist).mergeSort_perm dateLe).subset
    ((List.drop_sublist _ _).subset h)

theorem mem_upsert_cases {x : DayRecord} {today rate completed mood : Int} {hist : List DayRecord}
    (h : x ∈ upsert_today today rate completed mood hist) :
    x = { date := today, rate := rate, completed := completed, mood := mood } ∨ x ∈ hist := by
  have := mem_upsert h
  rw [update_history_eq] at this
  exact mem_replaceFirst this

theorem sorted_upsert (today rate completed mood : Int) (hist : List DayRecord) :
    List.Pairwise (fun a b => a.date ≤ b.date) (upsert_today today rate completed mood hist) :=
  List.Pairwise.sublist (List.drop_sublist _ _)
    (sorted_date_mergeSort (update_history today rate completed mood hist))

theorem dates_nodup_update {today rate completed mood : Int} {hist : List DayRecord}
    (h : (dates hist).Nodup) :
    (dates (update_history today rate completed mood hist)).Nodup := by
  rw [update_history_eq]
  by_cases hm :
      (({ date := today, rate := rate, completed := completed, mood := mood } : DayRecord)).date ∈
        dates hist
  · rw [dates_replaceFirst_of_mem hm]
    exact h
  · rw [replaceFirst_of_not_mem hm]
    simp only [dates, List.map_append, List.map_cons, List.map_nil]
    rw [List.nodup_append]
    refine ⟨h, List.nodup_singleton _, ?_⟩
    intro d hd hd1
    simp only [List.mem_singleton] at hd1
    exact hm (hd1 ▸ hd)

theorem dates_perm_sort (l : List DayRecord) :
    (dates (l.mergeSort dateLe)).Perm (dates l) :=
  List.Perm.map _ (l.mergeSort_perm dateLe)

theorem dates_nodup_upsert {today rate completed mood : Int} {hist : List DayRecord}
    (h : (dates hist).Nodup) :
    (dates (upsert_today today rate completed mood hist)).Nodup := by
  have h1 := @dates_nodup_update today rate completed mood hist h
  have h2 : (dates ((update_history today rate completed mood hist).mergeSort dateLe)).Nodup :=
    (dates_perm_sort _).nodup_iff.mpr h1
  unfold upsert_today
  exact List.Nodup.sublist (List.Sublist.map _ (List.drop_sublist _ _)) h2

theorem length_update_cases (today rate completed mood : Int) (hist : List DayRecord) :
    (update_history today rate completed mood hist).length = hist.length ∨
      (update_history today rate completed mood hist).length = hist.length + 1 := by
  rw [update_history_eq]
  by_cases hm :
      (({ date := today, rate := rate, completed := completed, mood := mood } : DayRecord)).date ∈
        dates hist
  · left
    have hlen :
        (dates (replaceFirst { date := today, rate := rate, completed := completed, mood := mood }
          hist)).length = (dates hist).length := by
      rw [dates_replaceFirst_of_mem hm]
    simpa [dates] using hlen
  · right
    rw [replaceFirst_of_not_mem hm]
    simp

theorem histInv_upsert {D : Finset Int} {s : List DayRecord} (h : histInv D s)
    (today rate completed mood : Int) :
    histInv (insert today D) (upsert_today today rate completed mood s) := by
  obtain ⟨hnd, hsub, hlen, hfill⟩ := h
  refine ⟨dates_nodup_upsert hnd, ?_, ?_, ?_⟩
  · intro r hr
    rcases mem_upsert_cases hr with h1 | h1
    · rw [h1]
      exact Finset.mem_insert_self _ _
    · exact Finset.mem_insert_of_mem (hsub r h1)
  · rw [length_upsert]
    by_cases hm : today ∈ dates s
    · have hu : (update_history today rate completed mood s).length = s.length := by
        rw [update_history_eq]
        have hlen2 :
            (dates (replaceFirst
              { date := today, rate := rate, completed := completed, mood := mood } s)).length =
              (dates s).length := by
          rw [dates_replaceFirst_of_mem hm]
        simpa [dates] using hlen2
      have htD : today ∈ D := by
        rcases (by simpa [dates] using hm : ∃ r ∈ s, r.date = today) with ⟨r, hrs, hrd⟩
        exact hrd ▸ hsub r hrs
      rw [Finset.insert_eq_self.mpr htD, hu, hlen]
      omega
    · have hu : (update_history today rate completed mood s).length = s.length + 1 := by
        rw [update_history_eq, replaceFirst_of_not_mem hm]
        simp
      by_cases hs7 : s.length < 7
      · have hDcard : D.card = s.length := by omega
        have htD : today ∉ D := fun hin => hm (hfill hs7 today hin)
        rw [hu, Finset.card_insert_of_not_mem htD, hDcard]
      · have hD7 : 7 ≤ D.card := by omega
        have hcard : D.card ≤ (insert today D).card :=
          Finset.card_le_card (Finset.subset_insert _ _)
        rw [hu]
        omega
  · intro hless d hd
    rw [length_upsert] at hless
    have hu7 : (update_history today rate completed mood s).length < 7 := by omega
    have hout : upsert_today today rate completed mood s =
        (update_history today rate completed mood s).mergeSort dateLe := by
      have hl : ((update_history today rate completed mood s).mergeSort dateLe).length =
          (update_history today rate completed mood s).length := List.length_mergeSort _
      rw [show upsert_today today rate completed mood s =
          ((update_history today rate completed mood s).mergeSort dateLe).drop
            (((update_history today rate completed mood s).mergeSort dateLe).length - 7) from rfl,
        hl, show (update_history today rate completed mood s).length - 7 = 0 by omega,
        List.drop_zero]
    rw [hout]
    have hmem : ∀ e, e ∈ dates (update_history today rate completed mood s) →
        e ∈ dates ((update_history today rate completed mood s).mergeSort dateLe) := by
      intro e he
      exact (dates_perm_sort _).mem_iff.mpr he
    rcases Finset.mem_insert.mp hd with h1 | h1
    · apply hmem
      have hrm : ({ date := today, rate := rate, completed := completed, mood := mood } :
          DayRecord) ∈ update_history today rate completed mood s := by
        rw [update_history_eq]
        exact row_mem_replaceFirst _ s
      subst h1
      exact List.mem_map.mpr ⟨_, hrm, rfl⟩
    · apply hmem
      have hslen : s.length < 7 := by
        rcases length_update_cases today rate completed mood s with he | he <;> omega
      have hds : d ∈ dates s := hfill hslen d h1
      rcases List.mem_map.mp hds with ⟨r, hrs, hrd⟩
      by_cases hrd2 : r.date = today
      · have hmm : today ∈ dates s := hrd2 ▸ List.mem_map.mpr ⟨r, hrs, rfl⟩
        rw [update_history_eq, dates_replaceFirst_of_mem hmm]
        exact hds
      · refine List.mem_map.mpr ⟨r, ?_, hrd⟩
        rw [update_history_eq]
        exact mem_replaceFirst_of_ne hrs hrd2

theorem histInv_empty : histInv ∅ [] := by
  refine ⟨List.nodup_nil, ?_, ?_, ?_⟩
  · intro r hr
    simp at hr
  · simp
  · intro _ d hd
    simp at hd

theorem histInv_apply_upserts (calls : List UpsertCall) :
    ∀ {D : Finset Int} {s : List DayRecord}, histInv D s →
      histInv (D ∪ (call_dates calls).toFinset) (apply_upserts calls s) := by
  induction calls with
  | nil =>
    intro D s h
    simpa [apply_upserts, call_dates] using h
  | cons c cs ih =>
    intro D s h
    have h1 := histInv_upsert h c.today c.rate c.completed c.mood
    have h2 := ih h1
    have hset : insert c.today D ∪ (call_dates cs).toFinset =
        D ∪ (call_dates (c :: cs)).toFinset := by
      simp only [call_dates, List.map_cons, List.toFinset_cons]
      rw [Finset.insert_union, Finset.union_insert]
    have happ : apply_upserts (c :: cs) s =
        apply_upserts cs (upsert_today c.today c.rate c.completed c.mood s) := by
      simp [apply_upserts]
    rw [happ, ← hset]
    exact h2

theorem upsert_today_def (today rate completed mood : Int) (hist : List DayRecord) :
    upsert_today today rate completed mood hist =
      ((update_history today rate completed mood hist).mergeSort dateLe).drop
        (((update_history today rate completed mood hist).mergeSort dateLe).length - 7) := rfl

theorem pairwise_take_drop {l : List DayRecord}
    (h : List.Pairwise (fun a b => a.date ≤ b.date) l) (k : Nat) :
    ∀ x ∈ l.take k, ∀ y ∈ l.drop k, x.date ≤ y.date :=
  (List.pairwise_append.mp (by rwa [List.take_append_drop])).2.2

theorem countP_today_le_one {u : List DayRecord} {today : Int} (h : (dates u).Nodup) :
    u.countP (fun x => x.date == today) ≤ 1 := by
  have h1 : List.count today (dates u) ≤ 1 := List.nodup_iff_count_le_one.mp h today
  have h2 : List.count today (dates u) = u.countP (fun x => x.date == today) := by
    rw [List.count_eq_countP]
    exact List.countP_map (fun x => x == today) (fun r => r.date) u
  omega

theorem upsert_le_today {today : Int} (rate completed mood : Int) {hist : List DayRecord}
    (hle : ∀ x ∈ hist, x.date ≤ today) :
    ∀ x ∈ upsert_today today rate completed mood hist, x.date ≤ today := by
  intro x hx
  rcases mem_upsert_cases hx with h1 | h1
  · rw [h1]
  · exact hle x h1

theorem upsert_filter_today (today rate completed mood : Int) (hist : List DayRecord)
    (hnd : (dates hist).Nodup) (hle : ∀ x ∈ hist, x.date ≤ today) :
    (upsert_today today rate completed mood hist).filter (fun x => x.date == today) =
      [{ date := today, rate := rate, completed := completed, mood := mood }] := by
  have hndu := @dates_nodup_update today rate completed mood hist hnd
  set u := update_history today rate completed mood hist with hu_def
  set s' := u.mergeSort dateLe with hs_def
  have hperm : s'.Perm u := u.mergeSort_perm dateLe
  have hout_def : upsert_today today rate completed mood hist = s'.drop (s'.length - 7) :=
    upsert_today_def today rate completed mood hist
  have hrow_u : ({ date := today, rate := rate, completed := completed, mood := mood } :
      DayRecord) ∈ u := by
    rw [hu_def, update_history_eq]
    exact row_mem_replaceFirst _ _
  have hle_u : ∀ x ∈ u, x.date ≤ today := by
    intro x hx
    rw [hu_def, update_history_eq] at hx
    rcases mem_replaceFirst hx with h1 | h1
    · rw [h1]
    · exact hle x h1
  have huniq : ∀ x ∈ u, x.date = today →
      x = { date := today, rate := rate, completed := completed, mood := mood } := by
    intro x hx hxd
    exact List.inj_on_of_nodup_map hndu hx hrow_u hxd
  have hsorted : List.Pairwise (fun a b => a.date ≤ b.date) s' := sorted_date_mergeSort u
  have hrow_out : ({ date := today, rate := rate, completed := completed, mood := mood } :
      DayRecord) ∈ upsert_today today rate completed mood hist := by
    by_contra hno
    have hrow_s : ({ date := today, rate := rate, completed := completed, mood := mood } :
        DayRecord) ∈ s'.take (s'.length - 7) ++ s'.drop (s'.length - 7) := by
      rw [List.take_append_drop]
      exact hperm.mem_iff.mpr hrow_u
    rcases List.mem_append.mp hrow_s with htake | hdrop
    · have hk : s'.length - 7 ≠ 0 := by
        intro h0
        rw [h0, List.take_zero] at htake
        simp at htake
      have hall : ∀ y ∈ upsert_today today rate completed mood hist, y.date = today := by
        intro y hy
        refine le_antisymm (hle_u y (mem_upsert hy)) ?_
        have hge := pairwise_take_drop hsorted (s'.length - 7) _ htake y (hout_def ▸ hy)
        exact hge
      have hcount7 : (upsert_today today rate completed mood hist).countP
          (fun x => x.date == today) = (upsert_today today rate completed mood hist).length :=
        List.countP_eq_length.mpr fun a ha => by simp [hall a ha]
      have hlen7 : (upsert_today today rate completed mood hist).length = 7 := by
        rw [hout_def, List.length_drop]
        omega
      have hle1 : (upsert_today today rate completed mood hist).countP
          (fun x => x.date == today) ≤ 1 := by
        calc (upsert_today today rate completed mood hist).countP (fun x => x.date == today)
            ≤ s'.countP (fun x => x.date == today) := by
              rw [hout_def]
              exact (List.drop_sublist _ _).countP_le _
          _ = u.countP (fun x => x.date == today) := hperm.countP_eq _
          _ ≤ 1 := countP_today_le_one hndu
      omega
    · exact hno (hout_def ▸ hdrop)
  have hle1 : (upsert_today today rate completed mood hist).countP
      (fun x => x.date == today) ≤ 1 := by
    calc (upsert_today today rate completed mood hist).countP (fun x => x.date == today)
        ≤ s'.countP (fun x => x.date == today) := by
          rw [hout_def]
          exact (List.drop_sublist _ _).countP_le _
      _ = u.countP (fun x => x.date == today) := hperm.countP_eq _
      _ ≤ 1 := countP_today_le_one hndu
  have hge1 : 1 ≤ (upsert_today today rate completed mood hist).countP
      (fun x => x.date == today) :=
    List.countP_pos_iff.mpr ⟨_, hrow_out, by simp⟩
  have hflen : ((upsert_today today rate completed mood hist).filter
      (fun x => x.date == today)).length = 1 := by
    rw [← List.countP_eq_length_filter]
    omega
  obtain ⟨a, ha⟩ := List.length_eq_one.mp hflen
  have haf : a ∈ (upsert_today today rate completed mood hist).filter
      (fun x => x.date == today) := by
    rw [ha]
    exact List.mem_singleton_self a
  obtain ⟨hao, hap⟩ := List.mem_filter.mp haf
  have hae : a = { date := today, rate := rate, completed := completed, mood := mood } :=
    huniq a (mem_upsert hao) (by simpa using hap)
  rw [ha, hae]

/-! ### Claims about the history store -/

/-- **C1**: starting from an empty history, any sequence of upserts whose
current-date arguments take `N ≥ 1` distinct values leaves exactly
`min N 7` records, and after every prefix of the sequence no two records
share a date. -/
theorem claim_upsert_sequence_card (calls : List UpsertCall)
    (hN : 1 ≤ (call_dates calls).toFinset.card) :
    (apply_upserts calls []).length = min (call_dates calls).toFinset.card 7 ∧
    ∀ pre suf, calls = pre ++ suf → (dates (apply_upserts pre [])).Nodup := by
  constructor
  · have h := histInv_apply_upserts calls histInv_empty
    rw [Finset.empty_union] at h
    exact h.2.2.1
  · intro pre suf hps
    exact (histInv_apply_upserts pre histInv_empty).1

theorem claim_upsert_sequence_card_witness :
    1 ≤ (call_dates [⟨1, 20, 1, 5⟩, ⟨2, 40, 2, 6⟩, ⟨1, 60, 3, 7⟩]).toFinset.card ∧
    (apply_upserts [⟨1, 20, 1, 5⟩, ⟨2, 40, 2, 6⟩, ⟨1, 60, 3, 7⟩] []).length =
      min (call_dates [⟨1, 20, 1, 5⟩, ⟨2, 40, 2, 6⟩, ⟨1, 60, 3, 7⟩]).toFinset.card 7 :=
  ⟨by decide,
    (claim_upsert_sequence_card [⟨1, 20, 1, 5⟩, ⟨2, 40, 2, 6⟩, ⟨1, 60, 3, 7⟩] (by decide)).1⟩

/-- **C2**: on any store state reachable in the program (distinct dates,
at least 7 records — `_init_history_if_needed` seeds 7), every upsert
leaves exactly 7 records, sorted in ascending date order, all taken from
the updated history, and every discarded record is strictly older than
every retained one. -/
theorem claim_upsert_retains_latest_seven (today rate completed mood : Int)
    (hist : List DayRecord) (hnd : (dates hist).Nodup) (h7 : 7 ≤ hist.length) :
    (upsert_today today rate completed mood hist).length = 7 ∧
    List.Pairwise (fun a b => a.date ≤ b.date) (upsert_today today rate completed mood hist) ∧
    (∀ x ∈ upsert_today today rate completed mood hist,
      x ∈ update_history today rate completed mood hist) ∧
    (∀ x ∈ update_history today rate completed mood hist,
      x ∉ upsert_today today rate completed mood hist →
        ∀ y ∈ upsert_today today rate completed mood hist, x.date < y.date) := by
  have hndu := @dates_nodup_update today rate completed mood hist hnd
  set u := update_history today rate completed mood hist with hu_def
  set s' := u.mergeSort dateLe with hs_def
  have hperm : s'.Perm u := u.mergeSort_perm dateLe
  have hsorted : List.Pairwise (fun a b => a.date ≤ b.date) s' := sorted_date_mergeSort u
  have hout_def : upsert_today today rate completed mood hist = s'.drop (s'.length - 7) :=
    upsert_today_def today rate completed mood hist
  refine ⟨?_, sorted_upsert today rate completed mood hist, fun x hx => mem_upsert hx, ?_⟩
  · rw [length_upsert]
    rcases length_update_cases today rate completed mood hist with he | he <;> omega
  · intro x hxu hxout y hy
    have hxs : x ∈ s'.take (s'.length - 7) ++ s'.drop (s'.length - 7) := by
      rw [List.take_append_drop]
      exact hperm.mem_iff.mpr hxu
    rcases List.mem_append.mp hxs with htake | hdrop
    · have hxy_le := pairwise_take_drop hsorted (s'.length - 7) x htake y (hout_def ▸ hy)
      refine lt_of_le_of_ne hxy_le ?_
      intro heq
      have hnds : (dates s').Nodup := (dates_perm_sort _).nodup_iff.mpr hndu
      have hys : y ∈ s' := (List.drop_sublist _ _).subset (hout_def ▸ hy)
      have hxy : x = y :=
        List.inj_on_of_nodup_map hnds ((List.take_sublist _ _).subset htake) hys heq
      exact hxout (hxy ▸ hy)
    · exact absurd (hout_def ▸ hdrop) hxout

theorem claim_upsert_retains_latest_seven_witness :
    (dates [⟨1, 40, 2, 5⟩, ⟨2, 60, 3, 6⟩, ⟨3, 80, 4, 7⟩, ⟨4, 20, 1, 4⟩, ⟨5, 100, 5, 8⟩,
      ⟨6, 60, 3, 6⟩, ⟨7, 0, 0, 5⟩]).Nodup ∧
    7 ≤ ([⟨1, 40, 2, 5⟩, ⟨2, 60, 3, 6⟩, ⟨3, 80, 4, 7⟩, ⟨4, 20, 1, 4⟩, ⟨5, 100, 5, 8⟩,
      ⟨6, 60, 3, 6⟩, ⟨7, 0, 0, 5⟩] : List DayRecord).length ∧
    (upsert_today 8 50 3 6 [⟨1, 40, 2, 5⟩, ⟨2, 60, 3, 6⟩, ⟨3, 80, 4, 7⟩, ⟨4, 20, 1, 4⟩,
      ⟨5, 100, 5, 8⟩, ⟨6, 60, 3, 6⟩, ⟨7, 0, 0, 5⟩]).length = 7 :=
  ⟨by decide, by decide,
    (claim_upsert_retains_latest_seven 8 50 3 6
      [⟨1, 40, 2, 5⟩, ⟨2, 60, 3, 6⟩, ⟨3, 80, 4, 7⟩, ⟨4, 20, 1, 4⟩, ⟨5, 100, 5, 8⟩,
        ⟨6, 60, 3, 6⟩, ⟨7, 0, 0, 5⟩] (by decide) (by decide)).1⟩

/-- **C3**: on any store state reachable in the program (distinct dates,
none in the future), upserting the same current date twice leaves exactly
one record for that date, and its rate, completed count and mood are the
arguments of the second call. -/
theorem claim_upsert_same_date_replaces
    (today rate1 completed1 mood1 rate2 completed2 mood2 : Int) (hist : List DayRecord)
    (hnd : (dates hist).Nodup) (hle : ∀ x ∈ hist, x.date ≤ today) :
    (upsert_today today rate2 completed2 mood2
        (upsert_today today rate1 completed1 mood1 hist)).filter (fun x => x.date == today) =
      [{ date := today, rate := rate2, completed := completed2, mood := mood2 }] :=
  upsert_filter_today today rate2 completed2 mood2 _
    (dates_nodup_upsert hnd) (upsert_le_today rate1 completed1 mood1 hle)

theorem claim_upsert_same_date_replaces_witness :
    (dates [⟨5, 40, 2, 5⟩]).Nodup ∧ (∀ x ∈ ([⟨5, 40, 2, 5⟩] : List DayRecord), x.date ≤ 6) ∧
    (upsert_today 6 60 3 8 (upsert_today 6 20 1 2 [⟨5, 40, 2, 5⟩])).filter
        (fun x => x.date == 6) = [{ date := 6, rate := 60, completed := 3, mood := 8 }] :=
  ⟨by decide, by decide,
    claim_upsert_same_date_replaces 6 20 1 2 60 3 8 [⟨5, 40, 2, 5⟩] (by decide) (by decide)⟩

/-- **C9**: the upsert never rewrites a record of another date: every
record of the result dated differently from today is literally a record of
the input history, and every input record dated differently from today
either survives or is dropped by the keep-latest-7 trim (the result is
full at 7 records and the dropped record is at most as recent as every
retained one). -/
theorem claim_upsert_frame (today rate completed mood : Int) (hist : List DayRecord) :
    (∀ x ∈ upsert_today today rate completed mood hist, x.date ≠ today → x ∈ hist) ∧
    (∀ x ∈ hist, x.date ≠ today →
      x ∈ upsert_today today rate completed mood hist ∨
        ((upsert_today today rate completed mood hist).length = 7 ∧
          ∀ y ∈ upsert_today today rate completed mood hist, x.date ≤ y.date)) := by
  set u := update_history today rate completed mood hist with hu_def
  set s' := u.mergeSort dateLe with hs_def
  have hperm : s'.Perm u := u.mergeSort_perm dateLe
  have hsorted : List.Pairwise (fun a b => a.date ≤ b.date) s' := sorted_date_mergeSort u
  have hout_def : upsert_today today rate completed mood hist = s'.drop (s'.length - 7) :=
    upsert_today_def today rate completed mood hist
  constructor
  · intro x hx hne
    rcases mem_upsert_cases hx with h1 | h1
    · exact absurd (by rw [h1]) hne
    · exact h1
  · intro x hx hne
    have hxu : x ∈ u := by
      rw [hu_def, update_history_eq]
      exact mem_replaceFirst_of_ne hx hne
    by_cases hmem : x ∈ upsert_today today rate completed mood hist
    · exact Or.inl hmem
    · right
      have hxs : x ∈ s'.take (s'.length - 7) ++ s'.drop (s'.length - 7) := by
        rw [List.take_append_drop]
        exact hperm.mem_iff.mpr hxu
      rcases List.mem_append.mp hxs with htake | hdrop
      · have hk : s'.length - 7 ≠ 0 := by
          intro h0
          rw [h0, List.take_zero] at htake
          simp at htake
        constructor
        · rw [hout_def, List.length_drop]
          omega
        · intro y hy
          exact pairwise_take_drop hsorted _ x htake y (hout_def ▸ hy)
      · exact absurd (hout_def ▸ hdrop) hmem

theorem claim_upsert_frame_witness :
    (⟨1, 10, 1, 5⟩ : DayRecord) ∈ upsert_today 2 50 3 6 [⟨1, 10, 1, 5⟩] ∨
      ((upsert_today 2 50 3 6 [⟨1, 10, 1, 5⟩]).length = 7 ∧
        ∀ y ∈ upsert_today 2 50 3 6 [⟨1, 10, 1, 5⟩], (⟨1, 10, 1, 5⟩ : DayRecord).date ≤ y.date) :=
  (claim_upsert_frame 2 50 3 6 [⟨1, 10, 1, 5⟩]).2 ⟨1, 10, 1, 5⟩ (by decide) (by decide)

/-! ### Claims about the presentation metrics and the API clients -/

/-- **C4**: for every completed count in 0..5 the presentation-layer rate
equals the integer nearest to `completed_count / 5 * 100`; in particular
0 gives 0, 3 gives 60 and 5 gives 100. -/
theorem claim_rate_round (c : Nat) (hc : c ≤ 5) :
    rate c = round ((c : ℚ) / 5 * 100) ∧ rate 0 = 0 ∧ rate 3 = 60 ∧ rate 5 = 100 := by
  refine ⟨?_, ?_, ?_, ?_⟩
  · interval_cases c <;> norm_num [rate, roundHalfToEven, round_eq]
  all_goals norm_num [rate, roundHalfToEven]

theorem claim_rate_round_witness :
    (3 : Nat) ≤ 5 ∧ rate 3 = round (((3 : Nat) : ℚ) / 5 * 100) :=
  ⟨by norm_num, (claim_rate_round 3 (by norm_num)).1⟩

/-- **C5**: whenever the upstream call fails — a transport error, a
non-200 status or an unparseable payload for the weather client, and
additionally a payload status field other than `"success"` or a
missing/empty image URL for the image client — the client returns `none`;
being total functions of the exchanged data, the models propagate no
exception. -/
theorem claim_clients_fail_closed (city api_key : String)
    (wresp : HttpResult WeatherPayload) (dresp : HttpResult DogPayload)
    (hw : wresp = .transportError ∨
      ∃ stc body, wresp = .response stc body ∧ (stc ≠ 200 ∨ body = none))
    (hd : dresp = .transportError ∨
      ∃ stc body, dresp = .response stc body ∧
        (stc ≠ 200 ∨ body = none ∨ ∃ d, body = some d ∧
          (d.status ≠ some "success" ∨ d.message = none ∨ d.message = some ""))) :
    (get_weather city api_key wresp).1 = none ∧ (get_dog_image dresp).1 = none := by
  constructor
  · rcases hw with h | ⟨stc, body, h, hcase⟩
    · subst h
      by_cases hk : api_key = "" <;> simp [get_weather, hk]
    · subst h
      by_cases hk : api_key = ""
      · simp [get_weather, hk]
      · rcases hcase with hst | hb
        · simp [get_weather, hk, hst]
        · subst hb
          by_cases hst : stc = 200 <;> simp [get_weather, hk, hst]
  · rcases hd with h | ⟨stc, body, h, hcase⟩
    · subst h
      simp [get_dog_image]
    · subst h
      rcases hcase with hst | hb | ⟨d, hb, hdc⟩
      · simp [get_dog_image, hst]
      · subst hb
        by_cases hst : stc = 200 <;> simp [get_dog_image, hst]
      · subst hb
        by_cases hst : stc = 200
        · rcases hdc with h1 | h1 | h1
          · simp [get_dog_image, hst, h1]
          · simp [get_dog_image, hst, h1]
          · by_cases h2 : d.status = some "success" <;>
              simp [get_dog_image, hst, h1, h2]
        · simp [get_dog_image, hst]

theorem claim_clients_fail_closed_witness :
    ((HttpResult.response 500 (some { weather := none, main := none }) :
        HttpResult WeatherPayload) = .transportError ∨
      ∃ stc body, (HttpResult.response 500 (some { weather := none, main := none }) :
          HttpResult WeatherPayload) = .response stc body ∧ (stc ≠ 200 ∨ body = none)) ∧
    (get_weather "Seoul" "key" (.response 500 (some { weather := none, main := none }))).1 =
      none ∧
    (get_dog_image (.response 200 (some { status := some "error", message := none }))).1 =
      none :=
  ⟨Or.inr ⟨500, some { weather := none, main := none }, rfl, Or.inl (by decide)⟩,
    claim_clients_fail_closed "Seoul" "key"
      (.response 500 (some { weather := none, main := none }))
      (.response 200 (some { status := some "error", message := none }))
      (Or.inr ⟨500, some { weather := none, main := none }, rfl, Or.inl (by decide)⟩)
      (Or.inr ⟨200, some { status := some "error", message := none }, rfl,
        Or.inr (Or.inr ⟨{ status := some "error", message := none }, rfl,
          Or.inl (by decide)⟩)⟩)⟩

/-- **C6**: with an empty credential the weather client and the report
generator return `none` and issue zero network requests, whatever the
network would have answered. -/
theorem claim_empty_credential_no_request (city coach_style date_str city2 : String)
    (mood : Int) (habits_checked : List String) (weather : Option WeatherSnapshot)
    (dog : Option DogSnapshot) (wresp : HttpResult WeatherPayload)
    (api : Except Unit (Option String)) :
    get_weather city "" wresp = (none, 0) ∧
    generate_report "" coach_style date_str city2 mood habits_checked weather dog api =
      (none, 0) := by
  constructor <;> simp [get_weather, generate_report]

/-- **C8**: with a credential present and a model response whose text
trims to the empty string the report generator returns `none`; otherwise
it returns exactly the trimmed text. -/
theorem claim_report_trimmed (openai_api_key coach_style date_str city : String) (mood : Int)
    (habits_checked : List String) (weather : Option WeatherSnapshot)
    (dog : Option DogSnapshot) (output_text : Option String)
    (hk : openai_api_key ≠ "") :
    (generate_report openai_api_key coach_style date_str city mood habits_checked weather dog
        (.ok output_text)).1 =
      if py_strip (output_text.getD "") = "" then none
      else some (py_strip (output_text.getD "")) := by
  simp [generate_report, hk]

theorem claim_report_trimmed_witness :
    "k" ≠ "" ∧ py_strip ((some "  good  ").getD "") = "good" ∧
    (generate_report "k" "coach" "2024-01-01" "Seoul" 7 [] none none
        (.ok (some "  good  "))).1 =
      if py_strip ((some "  good  ").getD "") = "" then none
      else some (py_strip ((some "  good  ").getD "")) :=
  ⟨by decide, by decide, claim_report_trimmed "k" "coach" "2024-01-01" "Seoul" 7 [] none none
    (some "  good  ") (by decide)⟩

/-- **C10**: whenever the weather client returns a snapshot, its city field
is the input city verbatim, even when every parsed weather field is
absent. -/
theorem claim_weather_city_verbatim (city api_key : String) (resp : HttpResult WeatherPayload)
    (w : WeatherSnapshot) (h : (get_weather city api_key resp).1 = some w) :
    w.city = city := by
  by_cases hk : api_key = ""
  · simp [get_weather, hk] at h
  · cases resp with
    | transportError => simp [get_weather, hk] at h
    | response status body =>
      by_cases hst : status = 200
      · cases body with
        | none => simp [get_weather, hk, hst] at h
        | some data =>
          simp [get_weather, hk, hst] at h
          rw [← h]
      · simp [get_weather, hk, hst] at h

theorem claim_weather_city_verbatim_witness :
    (get_weather "Seoul" "key" (.response 200 (some { weather := none, main := none }))).1 =
      some { city := "Seoul", description := none, temp := none,
             feels_like := none, humidity := none } ∧
    ({ city := "Seoul", description := none, temp := none,
       feels_like := none, humidity := none } : WeatherSnapshot).city = "Seoul" :=
  ⟨by decide,
    claim_weather_city_verbatim "Seoul" "key"
      (.response 200 (some { weather := none, main := none }))
      { city := "Seoul", description := none, temp := none,
        feels_like := none, humidity := none } (by decide)⟩

/-! ### Breed-derivation lemmas -/

theorem takeWhile_label {label post : List Char} (hnf : ∀ ch ∈ label, ch ≠ '/') :
    (label ++ '/' :: post).takeWhile (fun c => c != '/') = label := by
  induction label with
  | nil => simp [List.takeWhile_cons]
  | cons c cs ih =>
    have hb : (c != '/') = true := by simpa using hnf c (List.mem_cons_self c cs)
    simp only [List.cons_append, List.takeWhile_cons, hb, if_true]
    rw [ih fun ch hm => hnf ch (List.mem_cons_of_mem c hm)]

theorem dropWhile_label {label post : List Char} (hnf : ∀ ch ∈ label, ch ≠ '/') :
    (label ++ '/' :: post).dropWhile (fun c => c != '/') = '/' :: post := by
  induction label with
  | nil => simp [List.dropWhile_cons]
  | cons c cs ih =>
    have hb : (c != '/') = true := by simpa using hnf c (List.mem_cons_self c cs)
    simp only [List.cons_append, List.dropWhile_cons, hb, if_true]
    exact ih fun ch hm => hnf ch (List.mem_cons_of_mem c hm)

theorem matchBreedsAt_complete {label post : List Char} (hne : label ≠ [])
    (hnf : ∀ ch ∈ label, ch ≠ '/') :
    matchBreedsAt ("/breeds/".toList ++ (label ++ '/' :: post)) = some label := by
  have h8 : ("/breeds/".toList : List Char).length = 8 := rfl
  have hem : (label.isEmpty) = false := List.isEmpty_eq_false.mpr hne
  simp only [matchBreedsAt, List.take_left' h8, List.drop_left' h8, takeWhile_label hnf,
    dropWhile_label hnf, hem, if_true, if_false, Bool.false_eq_true, reduceIte]

theorem matchBreedsAt_sound {l label : List Char} (h : matchBreedsAt l = some label) :
    ∃ post, l = "/breeds/".toList ++ (label ++ '/' :: post) ∧ label ≠ [] ∧
      ∀ ch ∈ label, ch ≠ '/' := by
  simp only [matchBreedsAt] at h
  split at h
  case isFalse => exact absurd h (by simp)
  case isTrue h8 =>
    split at h
    case isTrue hem => exact absurd h (by simp)
    case isFalse hem =>
      split at h
      case h_2 => exact absurd h (by simp)
      case h_1 c post heq =>
        have hlab : (l.drop 8).takeWhile (fun c => c != '/') = label := by
          simpa using h
        refine ⟨post, ?_, ?_, ?_⟩
        · have hsplit : l.take 8 ++ l.drop 8 = l := List.take_append_drop 8 l
          have hrest : (l.drop 8).takeWhile (fun c => c != '/') ++
              (l.drop 8).dropWhile (fun c => c != '/') = l.drop 8 :=
            List.takeWhile_append_dropWhile _ _
          rw [← hsplit, h8]
          rw [hlab, heq] at hrest
          rw [← hrest]
        · intro he
          rw [he] at hlab
          rw [hlab] at hem
          simp at hem
        · intro ch hm
          rw [← hlab] at hm
          simpa using List.mem_takeWhile_imp hm

theorem searchBreeds_sound : ∀ {l label : List Char}, searchBreeds l = some label →
    ∃ pre post, l = pre ++ ("/breeds/".toList ++ (label ++ '/' :: post)) ∧ label ≠ [] ∧
      ∀ ch ∈ label, ch ≠ '/' := by
  intro l
  induction l with
  | nil => intro label h; simp [searchBreeds] at h
  | cons c cs ih =>
    intro label h
    simp only [searchBreeds] at h
    cases hm : matchBreedsAt (c :: cs) with
    | some lab =>
      rw [hm] at h
      simp only [Option.some.injEq] at h
      rcases matchBreedsAt_sound hm with ⟨post, heq, hne, hnf⟩
      subst h
      exact ⟨[], post, by simpa using heq, hne, hnf⟩
    | none =>
      rw [hm] at h
      rcases ih h with ⟨pre, post, heq, hne, hnf⟩
      exact ⟨c :: pre, post, by simp [heq], hne, hnf⟩

theorem searchBreeds_complete : ∀ (pre : List Char) {l label : List Char} (post : List Char),
    l = pre ++ ("/breeds/".toList ++ (label ++ '/' :: post)) → label ≠ [] →
    (∀ ch ∈ label, ch ≠ '/') → ∃ lab2, searchBreeds l = some lab2 := by
  intro pre
  induction pre with
  | nil =>
    intro l label post heq hne hnf
    subst heq
    have hm := @matchBreedsAt_complete label post hne hnf
    have hcons : ("/breeds/".toList ++ (label ++ '/' :: post) : List Char) =
        '/' :: ("breeds/".toList ++ (label ++ '/' :: post)) := rfl
    rw [List.nil_append, hcons]
    rw [hcons] at hm
    refine ⟨label, ?_⟩
    simp only [searchBreeds, hm]
  | cons c pre' ih =>
    intro l label post heq hne hnf
    subst heq
    have hcons : ((c :: pre') ++ ("/breeds/".toList ++ (label ++ '/' :: post)) : List Char) =
        c :: (pre' ++ ("/breeds/".toList ++ (label ++ '/' :: post))) := by simp
    rw [hcons]
    rcases ih post rfl hne hnf with ⟨lab2, hs⟩
    cases hm : matchBreedsAt (c :: (pre' ++ ("/breeds/".toList ++ (label ++ '/' :: post)))) with
    | some lab =>
      refine ⟨lab, ?_⟩
      simp only [searchBreeds]
      rw [hm]
    | none =>
      refine ⟨lab2, ?_⟩
      simp only [searchBreeds]
      rw [hm]
      exact hs

/-- Concrete evaluation of the breed derivation on the counterexample URL:
the matched label `"shiba-"` renders as `"shiba "` and is then stripped. -/
theorem extract_breed_cex_eval : extract_breed "x/breeds/shiba-/a.jpg" = "shiba" := rfl

/-- **C7** (counterexample): a URL whose breeds path segment is the label
`"shiba-"` (followed by a slash and a file name) has hyphens-to-spaces
rendering `"shiba "`, yet the client derives `"shiba"` — the code
additionally strips surrounding whitespace, so the category does not always
equal the segment with hyphens replaced by spaces. -/
theorem claim_breed_counterexample :
    hasBreedSegment ("x/breeds/shiba-/a.jpg").toList "shiba-".toList ∧
    (hyphenToSpace "shiba-".toList).asString = "shiba " ∧
    extract_breed "x/breeds/shiba-/a.jpg" = "shiba" ∧
    extract_breed "x/breeds/shiba-/a.jpg" ≠ "shiba " := by
  refine ⟨⟨by decide, by decide, "x".toList, "a.jpg".toList, by decide⟩, by decide,
    extract_breed_cex_eval, ?_⟩
  rw [extract_breed_cex_eval]
  decide

/-- **C7** (amended): for every image URL containing a `/breeds/<label>/`
path segment (nonempty, slash-free label), the derived category is obtained
from such a segment — the first one matched — by replacing every hyphen
with a space and trimming surrounding whitespace, with `"unknown"` when the
trimmed result is empty; for every URL with no such segment the category is
the literal `"unknown"`. -/
theorem claim_breed_amended (img_url : String) :
    (∀ label, hasBreedSegment img_url.toList label →
      ∃ label2, hasBreedSegment img_url.toList label2 ∧
        extract_breed img_url =
          (if py_strip ((hyphenToSpace label2).asString) = "" then "unknown"
           else py_strip ((hyphenToSpace label2).asString))) ∧
    ((∀ label, ¬hasBreedSegment img_url.toList label) →
      extract_breed img_url = "unknown") := by
  constructor
  · rintro label ⟨hne, hnf, pre, post, heq⟩
    obtain ⟨lab2, hs⟩ := searchBreeds_complete pre post heq hne hnf
    obtain ⟨pre2, post2, heq2, hne2, hnf2⟩ := searchBreeds_sound hs
    refine ⟨lab2, ⟨hne2, hnf2, pre2, post2, heq2⟩, ?_⟩
    simp only [extract_breed, hs]
  · intro h
    cases hs : searchBreeds img_url.toList with
    | none =>
      unfold extract_breed
      rw [hs]
    | some lab =>
      obtain ⟨pre2, post2, heq2, hne2, hnf2⟩ := searchBreeds_sound hs
      exact absurd ⟨hne2, hnf2, pre2, post2, heq2⟩ (h lab)

theorem claim_breed_amended_witness :
    hasBreedSegment ("x/breeds/shiba-inu/a.jpg").toList "shiba-inu".toList ∧
    ∃ label2, hasBreedSegment ("x/breeds/shiba-inu/a.jpg").toList label2 ∧
      extract_breed "x/breeds/shiba-inu/a.jpg" =
        (if py_strip ((hyphenToSpace label2).asString) = "" then "unknown"
         else py_strip ((hyphenToSpace label2).asString)) := by
  have hseg : hasBreedSegment ("x/breeds/shiba-inu/a.jpg").toList "shiba-inu".toList :=
    ⟨by decide, by decide, "x".toList, "a.jpg".toList, by decide⟩
  exact ⟨hseg, (claim_breed_amended "x/breeds/shiba-inu/a.jpg").1 "shiba-inu".toList hseg⟩

/-! ### The seeded store satisfies the hypotheses used above -/

theorem init_history_length (today : Int) : (init_history today).length = 7 := by
  simp [init_history]

theorem init_history_le_today (today : Int) :
    ∀ x ∈ init_history today, x.date ≤ today := by
  intro x hx
  simp only [init_history, List.mem_append, List.mem_map, List.mem_range,
    List.mem_singleton] at hx
  rcases hx with ⟨j, hj, rfl⟩ | rfl
  · show today - (6 - (j : Int)) ≤ today
    omega
  · show today ≤ today
    exact le_rfl

theorem dates_init_history_nodup (today : Int) : (dates (init_history today)).Nodup := by
  simp only [init_history, dates, List.map_append, List.map_map, List.map_cons, List.map_nil]
  rw [List.nodup_append]
  refine ⟨?_, List.nodup_singleton _, ?_⟩
  · refine List.Nodup.map_on ?_ (List.nodup_range 6)
    intro a ha b hb hab
    simp only [List.mem_range] at ha hb
    simp only [Function.comp] at hab
    have hab2 : today - (6 - (a : Int)) = today - (6 - (b : Int)) := hab
    omega
  · intro d hd hd2
    simp only [List.mem_singleton] at hd2
    rw [hd2] at hd
    simp only [List.mem_map, List.mem_range, Function.comp] at hd
    rcases hd with ⟨j, hj, hjd⟩
    have hjd2 : today - (6 - (j : Int)) = today := hjd
    omega
